import Mathlib

/-!
Verification of the inkstone istring crate (small-string-optimized byte and
string containers). The development shallowly embeds the containers of
src/crates/istring: the IBytes union is modelled by its 24 raw bytes
(64-bit little-endian layout, the layout the source declares for
target_pointer_width 64 and target_endian little), heap buffers live in an
explicit allocation map, and every unsafe memory operation of the source
(raw reads, raw writes, frees via Vec::from_raw_parts) is represented by a
fallible operation on that map, so that undefined behaviour surfaces as
none.
-/

set_option maxRecDepth 20000

namespace IStr

/-- Little-endian decoding of a byte list into a natural number. -/
def leDecode : List Nat → Nat
  | [] => 0
  | b :: rest => b + 256 * leDecode rest

/-- Little-endian encoding of a natural number into k bytes. -/
def leEncode : Nat → Nat → List Nat
  | _, 0 => []
  | n, k + 1 => n % 256 :: leEncode (n / 256) k

/-- Overwrite the bytes of a list starting at a given offset. -/
def setRange (l : List Nat) (off : Nat) (v : List Nat) : List Nat :=
  l.take off ++ v ++ l.drop (off + v.length)

/-- Pad or truncate a byte list to exactly n bytes (zero filled). -/
def padTrunc (l : List Nat) (n : Nat) : List Nat :=
  l.take n ++ List.replicate (n - l.length) 0

/-! ## Allocation model

Heap buffers owned by the containers live in an allocation map from
nonzero addresses to byte blocks. Freeing requires the address to be live
with the recorded block size, as Vec::from_raw_parts does; violating that
is undefined behaviour and is modelled as none. -/

/-- An allocation map: live (address, buffer) pairs. -/
abbrev Mem := List (Nat × List Nat)

/-- A fresh address strictly above every live allocation (never 0, the null pointer). -/
def Mem.fresh (m : Mem) : Nat :=
  m.foldr (fun pb acc => max (pb.1 + pb.2.length + 1) acc) 1

/-- Allocate a buffer; fails (allocator abort) if the address space is exhausted. -/
def Mem.alloc (m : Mem) (b : List Nat) : Option (Nat × Mem) :=
  if m.fresh + b.length < 2 ^ 64 then some (m.fresh, (m.fresh, b) :: m) else none

/-- Look up the live buffer at an address. -/
def Mem.lookup : Mem → Nat → Option (List Nat)
  | [], _ => none
  | (q, b) :: rest, p => if q = p then some b else Mem.lookup rest p

/-- Free the allocation at address p, whose size must be cap
(the contract of Vec::from_raw_parts); otherwise undefined behaviour. -/
def Mem.free : Mem → Nat → Nat → Option Mem
  | [], _, _ => none
  | (q, b) :: rest, p, cap =>
      if q = p then (if b.length = cap then some rest else none)
      else (Mem.free rest p cap).map ((q, b) :: ·)

/-- Read n bytes starting at address p (offset 0); undefined behaviour if out of range. -/
def Mem.readBytes (m : Mem) (p n : Nat) : Option (List Nat) :=
  (m.lookup p).bind fun b => if n ≤ b.length then some (b.take n) else none

/-- Write bytes into the buffer at address p starting at a byte offset;
undefined behaviour if the write runs past the allocation. -/
def Mem.write : Mem → Nat → Nat → List Nat → Option Mem
  | [], _, _, _ => none
  | (q, b) :: rest, p, off, v =>
      if q = p then
        (if off + v.length ≤ b.length then some ((q, setRange b off v) :: rest) else none)
      else (Mem.write rest p off v).map ((q, b) :: ·)

/-! ## next_power_of_two

Rust's usize::next_power_of_two: the least power of two that is ≥ the
argument (1 for arguments ≤ 1). Implemented by doubling with explicit
fuel so that the definition evaluates inside the kernel. -/

/-- Doubling search: first value of the form p * 2 ^ i that is ≥ n, within fuel steps. -/
def np2go (n : Nat) : Nat → Nat → Nat
  | 0, p => p
  | f + 1, p => if n ≤ p then p else np2go n f (2 * p)

/-- Least power of two that is ≥ n (and ≥ 1): Rust's next_power_of_two. -/
def nextPow2 (n : Nat) : Nat := np2go n n 1

/-! ## IBytes (src/crates/istring/src/ibytes.rs, 64-bit little-endian)

The IBytesUnion is 24 bytes. The inline view is data[0..23] plus a length
byte at offset 23 whose high bit (IS_INLINE) is the discriminant; the heap
view is ptr at offset 0, cap at offset 8, len at offset 16, each 8 bytes
little-endian, so the length byte at offset 23 is the top byte of
heap.len. We model the union by its 24 raw bytes and each field access by
the corresponding byte range, exactly as the repr(C) layout lays it out. -/

def IS_INLINE : Nat := 128

def LEN_MASK : Nat := 127

def INLINE_CAPACITY : Nat := 23

def MAX_CAPACITY : Nat := 2 ^ 63 - 1

/-- The IBytes container: the 24 raw bytes of its union. -/
structure IBytes where
  ubytes : List Nat
deriving DecidableEq

/-- The inline length byte: offset 23 of the union (top byte of heap.len). -/
def IBytes.lenByte (s : IBytes) : Nat := s.ubytes.getD 23 0

/-- is_inline(): tests the IS_INLINE bit of the inline length byte. -/
def IBytes.is_inline (s : IBytes) : Bool := (s.lenByte &&& IS_INLINE) != 0

/-- The inline data array: bytes 0..23 of the union. -/
def IBytes.inlineData (s : IBytes) : List Nat := s.ubytes.take 23

/-- The heap pointer field: bytes 0..8 of the union, little-endian. -/
def IBytes.heapPtr (s : IBytes) : Nat := leDecode (s.ubytes.take 8)

/-- The heap capacity field: bytes 8..16 of the union, little-endian. -/
def IBytes.heapCap (s : IBytes) : Nat := leDecode ((s.ubytes.drop 8).take 8)

/-- The heap length field: bytes 16..24 of the union, little-endian. -/
def IBytes.heapLen (s : IBytes) : Nat := leDecode (s.ubytes.drop 16)

/-- len(): masks the length byte when inline, reads heap.len otherwise. -/
def IBytes.len (s : IBytes) : Nat :=
  if s.is_inline then s.lenByte &&& LEN_MASK else s.heapLen

/-- capacity(): the inline capacity when inline, heap.cap otherwise. -/
def IBytes.capacity (s : IBytes) : Nat :=
  if s.is_inline then INLINE_CAPACITY else s.heapCap

/-- Build an inline-view union: data padded to 23 bytes plus the raw length byte. -/
def IBytes.mkInline (data : List Nat) (lb : Nat) : IBytes :=
  ⟨padTrunc data 23 ++ [lb]⟩

/-- Build a heap-view union from the ptr, cap and len fields. -/
def IBytes.mkHeap (p c l : Nat) : IBytes :=
  ⟨leEncode p 8 ++ leEncode c 8 ++ leEncode l 8⟩

/-- Overwrite the inline length byte (offset 23) in place. -/
def IBytes.setLenByte (s : IBytes) (lb : Nat) : IBytes := ⟨s.ubytes.take 23 ++ [lb]⟩

/-- Overwrite the heap.len field (bytes 16..24) in place. -/
def IBytes.setHeapLen (s : IBytes) (l : Nat) : IBytes := ⟨s.ubytes.take 16 ++ leEncode l 8⟩

/-- new(): empty inline container (zero data, length byte IS_INLINE). -/
def IBytes.new : IBytes := mkInline (List.replicate 23 0) IS_INLINE

/-- set_len(new_len): asserts new_len ≤ capacity, then writes the active length field. -/
def IBytes.set_len (s : IBytes) (new_len : Nat) : Option IBytes :=
  if new_len ≤ s.capacity then
    if s.is_inline then some (s.setLenByte (new_len ||| IS_INLINE))
    else some (s.setHeapLen new_len)
  else none

/-- as_slice(): the first len bytes of the inline data, or a raw read of
the heap buffer. Inline indexing past the 23-byte array panics; reading a
dead heap pointer is undefined behaviour. Both are modelled as none. -/
def IBytes.as_slice (s : IBytes) (m : Mem) : Option (List Nat) :=
  if s.is_inline then
    if s.len ≤ INLINE_CAPACITY then some (s.inlineData.take s.len) else none
  else m.readBytes s.heapPtr s.len

/-- with_capacity(capacity): eager heap allocation above the inline capacity. -/
def IBytes.with_capacity (c : Nat) (m : Mem) : Option (IBytes × Mem) :=
  if c < MAX_CAPACITY then
    if c > INLINE_CAPACITY then
      (m.alloc (List.replicate c 0)).map fun pm => (mkHeap pm.1 c 0, pm.2)
    else some (new, m)
  else none

/-- move_to_heap(cap): promote an inline container to a fresh heap buffer of
capacity cap carrying the current content; no-op when already heap-resident.
Asserts cap ≥ len; the allocation itself aborts past the addressable maximum. -/
def IBytes.move_to_heap (s : IBytes) (m : Mem) (cap : Nat) : Option (IBytes × Mem) :=
  if s.is_inline then
    if cap < s.len then none
    else if cap > MAX_CAPACITY then none
    else
      let l := s.len
      (m.alloc (s.inlineData.take l ++ List.replicate (cap - l) 0)).map fun pm =>
        (mkHeap pm.1 cap l, pm.2)
  else some (s, m)

/-- resize(new_cap): asserts heap-resident and new_cap ≥ len, then delegates
to Vec::reserve(new_cap - len): a no-op when the spare capacity suffices,
otherwise an amortized grow to max(2 * cap, new_cap) (at least 8, the
minimal nonzero Vec capacity for byte elements), reallocating the buffer. -/
def IBytes.resize (s : IBytes) (m : Mem) (new_cap : Nat) : Option (IBytes × Mem) :=
  if s.is_inline then none
  else if new_cap < s.len then none
  else
    let l := s.len
    let p := s.heapPtr
    let c := s.heapCap
    if c - l ≥ new_cap - l then some (s, m)
    else
      let newc := max (max (2 * c) new_cap) 8
      if newc > MAX_CAPACITY then none
      else do
        let content ← m.readBytes p l
        let m1 ← m.free p c
        let (p2, m2) ← m1.alloc (content ++ List.replicate (newc - l) 0)
        some (mkHeap p2 newc l, m2)

/-- shrink(): reads the union's heap view unconditionally; when len fits
inline it rewrites the length byte, copies len bytes from the heap pointer
into the inline data and frees (pointer, capacity); otherwise resize(len). -/
def IBytes.shrink (s : IBytes) (m : Mem) : Option (IBytes × Mem) :=
  let l := s.len
  if l ≤ INLINE_CAPACITY then
    let hp := s.heapPtr
    let hc := s.heapCap
    let s1 := s.setLenByte (l ||| IS_INLINE)
    do
      let content ← m.readBytes hp l
      let s2 : IBytes := ⟨setRange s1.ubytes 0 content⟩
      let m1 ← m.free hp hc
      some (s2, m1)
  else s.resize m l

/-- reserve(additional): requests capacity() + additional; inline states move
to the heap only when that exceeds the inline capacity. -/
def IBytes.reserve (s : IBytes) (m : Mem) (additional : Nat) : Option (IBytes × Mem) :=
  let new_cap := s.capacity + additional
  if s.is_inline then
    if new_cap > INLINE_CAPACITY then s.move_to_heap m new_cap else some (s, m)
  else s.resize m new_cap

/-- reserve_exact(additional): requests capacity() + additional; inline states
always move to the heap, heap states delegate to resize. -/
def IBytes.reserve_exact (s : IBytes) (m : Mem) (additional : Nat) : Option (IBytes × Mem) :=
  let new_cap := s.capacity + additional
  if s.is_inline then s.move_to_heap m new_cap
  else s.resize m new_cap

/-- extend_from_slice(bytes): grow to nextPow2(new_len) when the new length
exceeds the current capacity (promoting inline states to the heap), write the
bytes at offset old_len through as_mut_ptr, then set_len(new_len). -/
def IBytes.extend_from_slice (s : IBytes) (m : Mem) (bs : List Nat) : Option (IBytes × Mem) := do
  let old_len := s.len
  let new_len := old_len + bs.length
  let (s1, m1) ←
    if s.is_inline then
      if new_len > INLINE_CAPACITY then s.move_to_heap m (nextPow2 new_len)
      else some (s, m)
    else
      if new_len > s.capacity then s.resize m (nextPow2 new_len)
      else some (s, m)
  let (s2, m2) ←
    if s1.is_inline then
      if old_len + bs.length ≤ INLINE_CAPACITY then
        some ((⟨setRange s1.ubytes old_len bs⟩ : IBytes), m1)
      else none
    else (m1.write s1.heapPtr old_len bs).map fun m2 => (s1, m2)
  let s3 ← s2.set_len new_len
  some (s3, m2)

/-- push(byte): extend_from_slice with a single byte. -/
def IBytes.push (s : IBytes) (m : Mem) (b : Nat) : Option (IBytes × Mem) :=
  s.extend_from_slice m [b]

/-- From a borrowed slice: heap when the length exceeds the inline capacity
(Vec::from allocates exactly len), inline with the IS_INLINE bit otherwise. -/
def IBytes.from_slice (bs : List Nat) (m : Mem) : Option (IBytes × Mem) :=
  if bs.length > INLINE_CAPACITY then
    (m.alloc bs).map fun pm => (mkHeap pm.1 bs.length bs.length, pm.2)
  else some (mkInline bs (bs.length ||| IS_INLINE), m)

/-- From an owned Vec (given by its raw parts ptr, len, cap): adopts the
buffer as the heap representation whenever cap ≠ 0, and only a zero-capacity
vector produces the empty inline container. -/
def IBytes.from_vec (p l c : Nat) : IBytes :=
  if c ≠ 0 then mkHeap p c l else new

/-! ## Well-formedness -/

/-- Heap-resident well-formedness: the union holds the canonical encoding of
(ptr, cap, len), the fields are in range, len ≤ cap, and the allocation map
holds a live buffer of exactly cap bytes at ptr. -/
def IBytes.wfHeap (s : IBytes) (m : Mem) : Prop :=
  ∃ p c l blk, s.ubytes = leEncode p 8 ++ leEncode c 8 ++ leEncode l 8 ∧
    p < 2 ^ 64 ∧ c ≤ MAX_CAPACITY ∧ l ≤ c ∧ m.lookup p = some blk ∧ blk.length = c

/-- Well-formed container states: 24 union bytes, and the active
representation satisfies its invariant. -/
def IBytes.wf (s : IBytes) (m : Mem) : Prop :=
  s.ubytes.length = 24 ∧ (if s.is_inline then s.len ≤ INLINE_CAPACITY else s.wfHeap m)

/-! Shared behavioural layer (define_common_bytes in common.rs): equality,
ordering and hashing go through as_slice. -/

/-- PartialEq: self.as_slice().eq(rhs.as_slice()). -/
def IBytes.beqSem (a b : IBytes) (m : Mem) : Option Bool := do
  let x ← a.as_slice m
  let y ← b.as_slice m
  some (x == y)

/-- Hash: self.as_slice().hash(state); a byte slice feeds its length and
then its bytes to the hasher, so the data fed is (length, bytes). -/
def IBytes.hashFeed (a : IBytes) (m : Mem) : Option (Nat × List Nat) :=
  (a.as_slice m).map fun bs => (bs.length, bs)

/-- Lexicographic ordering of byte sequences: Ord for [u8]. -/
def listCmp : List Nat → List Nat → Ordering
  | [], [] => .eq
  | [], _ :: _ => .lt
  | _ :: _, [] => .gt
  | a :: xs, b :: ys => match compare a b with
      | .eq => listCmp xs ys
      | o => o

/-- Ord: self.as_slice().cmp(other.as_slice()). -/
def IBytes.cmpSem (a b : IBytes) (m : Mem) : Option Ordering := do
  let x ← a.as_slice m
  let y ← b.as_slice m
  some (listCmp x y)

/-! ## Append operation sequences (for the amortized-growth property) -/

/-- A public append operation on IBytes. -/
inductive BOp where
  | push (b : Nat)
  | extend (bs : List Nat)
deriving DecidableEq

/-- Apply one append operation. -/
def applyOp (st : IBytes × Mem) : BOp → Option (IBytes × Mem)
  | .push b => st.1.push st.2 b
  | .extend bs => st.1.extend_from_slice st.2 bs

/-- Run a sequence of append operations from the empty container. -/
def runOps (ops : List BOp) : Option (IBytes × Mem) :=
  ops.foldlM applyOp (IBytes.new, ([] : Mem))

/-! ## UTF-8 validation (core::str::from_utf8, used by IString::from_utf8) -/

/-- A UTF-8 decode error: position of the first invalid sequence and the
length of the invalid prefix there (none when the input ended early). -/
structure Utf8Error where
  valid_up_to : Nat
  error_len : Option Nat
deriving DecidableEq

/-- utf8_char_width of a leading byte. -/
def utf8CharWidth (b : Nat) : Nat :=
  if b < 128 then 1
  else if b < 194 then 0
  else if b < 224 then 2
  else if b < 240 then 3
  else if b < 245 then 4
  else 0

/-- A UTF-8 continuation byte: 0x80 ..= 0xBF. -/
def isCont (b : Nat) : Bool := 128 ≤ b && b ≤ 191

/-- Permitted second byte of a 3-byte sequence, by leading byte. -/
def valid3 (b b1 : Nat) : Bool :=
  (b == 224 && 160 ≤ b1 && b1 ≤ 191) ||
  (225 ≤ b && b ≤ 236 && isCont b1) ||
  (b == 237 && 128 ≤ b1 && b1 ≤ 159) ||
  (238 ≤ b && b ≤ 239 && isCont b1)

/-- Permitted second byte of a 4-byte sequence, by leading byte. -/
def valid4 (b b1 : Nat) : Bool :=
  (b == 240 && 144 ≤ b1 && b1 ≤ 191) ||
  (241 ≤ b && b ≤ 243 && isCont b1) ||
  (b == 244 && 128 ≤ b1 && b1 ≤ 143)

/-- run_utf8_validation: none when the bytes are valid UTF-8, otherwise the
error with the position of the offending sequence and the invalid length. -/
def utf8Go (i : Nat) : List Nat → Option Utf8Error
  | [] => none
  | b :: rest =>
      if b < 128 then utf8Go (i + 1) rest
      else match utf8CharWidth b, rest with
        | 2, [] => some ⟨i, none⟩
        | 2, b1 :: r1 =>
            if isCont b1 then utf8Go (i + 2) r1 else some ⟨i, some 1⟩
        | 3, [] => some ⟨i, none⟩
        | 3, b1 :: r1 =>
            if valid3 b b1 then
              match r1 with
              | [] => some ⟨i, none⟩
              | b2 :: r2 => if isCont b2 then utf8Go (i + 3) r2 else some ⟨i, some 2⟩
            else some ⟨i, some 1⟩
        | 4, [] => some ⟨i, none⟩
        | 4, b1 :: r1 =>
            if valid4 b b1 then
              match r1 with
              | [] => some ⟨i, none⟩
              | b2 :: r2 =>
                  if isCont b2 then
                    match r2 with
                    | [] => some ⟨i, none⟩
                    | b3 :: r3 => if isCont b3 then utf8Go (i + 4) r3 else some ⟨i, some 3⟩
                  else some ⟨i, some 2⟩
            else some ⟨i, some 1⟩
        | _, _ => some ⟨i, some 1⟩

/-- Validate a whole byte sequence. -/
def runUtf8Validation (v : List Nat) : Option Utf8Error := utf8Go 0 v

/-! ## IString (src/crates/istring/src/istring.rs) -/

/-- IString: a text wrapper around IBytes. -/
structure IString where
  bytes : IBytes
deriving DecidableEq

/-- FromUtf8Error (lib.rs): carries the original byte container and the
decode error. -/
structure FromUtf8Error where
  bytes : IBytes
  error : Utf8Error
deriving DecidableEq

/-- into_bytes(): recover the original byte container from the error. -/
def FromUtf8Error.into_bytes (e : FromUtf8Error) : IBytes := e.bytes

/-- as_bytes(): view the original bytes held by the error. -/
def FromUtf8Error.as_bytes (e : FromUtf8Error) (m : Mem) : Option (List Nat) :=
  e.bytes.as_slice m

/-- Result of IString::from_utf8. -/
inductive FromUtf8Result where
  | ok (s : IString)
  | err (e : FromUtf8Error)
deriving DecidableEq

/-- IString::from_utf8(bytes): validate the slice view; on success keep the
container as the string, on failure wrap the untouched container together
with the error. -/
def IString.from_utf8 (b : IBytes) (m : Mem) : Option FromUtf8Result :=
  (b.as_slice m).map fun bs =>
    match runUtf8Validation bs with
    | none => .ok ⟨b⟩
    | some e => .err ⟨b, e⟩

/-- IString::truncate(new_len): shorten by set_len only when new_len is
below the current length; no character-boundary check is made. -/
def IString.truncate (s : IString) (new_len : Nat) : Option IString :=
  if new_len < s.bytes.len then (s.bytes.set_len new_len).map IString.mk
  else some s

/-- IString::shrink(): delegates to IBytes::shrink. -/
def IString.shrink (s : IString) (m : Mem) : Option (IString × Mem) :=
  (s.bytes.shrink m).map fun bm => (⟨bm.1⟩, bm.2)

/-- IString::as_str() viewed as bytes (str::from_utf8_unchecked keeps the
byte content as is). -/
def IString.as_str_bytes (s : IString) (m : Mem) : Option (List Nat) :=
  s.bytes.as_slice m

/-! ## UTF-8 encoding of characters (for SmallString's iterator collection) -/

/-- UTF-8 encoding of a Unicode code point (char::encode_utf8). -/
def utf8EncodeChar (c : Nat) : List Nat :=
  if c < 128 then [c]
  else if c < 2048 then [192 ||| (c >>> 6), 128 ||| (c &&& 63)]
  else if c < 65536 then
    [224 ||| (c >>> 12), 128 ||| ((c >>> 6) &&& 63), 128 ||| (c &&& 63)]
  else
    [240 ||| (c >>> 18), 128 ||| ((c >>> 12) &&& 63), 128 ||| ((c >>> 6) &&& 63),
      128 ||| (c &&& 63)]

/-- char::len_utf8. -/
def lenUtf8 (c : Nat) : Nat :=
  if c < 128 then 1
  else if c < 2048 then 2
  else if c < 65536 then 3
  else 4

/-- A Unicode scalar value: in range and not a surrogate. -/
def scalarValue (c : Nat) : Prop := c < 1114112 ∧ ¬(55296 ≤ c ∧ c < 57344)

/-- Declarative UTF-8 validity: the bytes are the concatenated encodings of
a sequence of Unicode scalar values. -/
def ValidUtf8 (bs : List Nat) : Prop :=
  ∃ cs : List Nat, (∀ c ∈ cs, scalarValue c) ∧ bs = (cs.map utf8EncodeChar).flatten

/-! ## SmallString (src/crates/istring/src/small.rs)

Only the parts the claims need: the Small layout has no capacity field, its
inline capacity is 15 on 64-bit targets, and an owned buffer of more than
15 bytes is adopted as an exactly sized heap box. The iterator collection
for SmallString is modelled on the representation level: a result is inline
(a 15-byte buffer plus its used length) or an exactly sized heap box. -/

def SMALL_INLINE_CAPACITY : Nat := 15

/-- A SmallString result: inline buffer with its used length, or an exactly
sized heap box. -/
inductive SmallRepr where
  | inline (data : List Nat) (len : Nat)
  | heap (content : List Nat)
deriving DecidableEq

/-- The slice view of a SmallRepr. -/
def SmallRepr.view : SmallRepr → List Nat
  | .inline data len => data.take len
  | .heap content => content

/-- From a String or Vec<u8> (From String for SmallString via
From Vec u8 for SmallBytes): inline when the length fits, otherwise an
exactly sized box of the bytes. -/
def smallFromString (bs : List Nat) : SmallRepr :=
  if bs.length ≤ SMALL_INLINE_CAPACITY then .inline (padTrunc bs SMALL_INLINE_CAPACITY) bs.length
  else .heap bs

/-- FromIterator char for SmallString: fill a stack buffer while each next
character still fits the inline capacity; on the first overflow, build a
String from the accumulated prefix, the current character and the rest of
the iterator, and convert that String at the end. -/
def smallFromIterGo (buf : List Nat) (pos : Nat) : List Nat → SmallRepr
  | [] => .inline buf pos
  | c :: rest =>
      if SMALL_INLINE_CAPACITY < pos + lenUtf8 c then
        smallFromString (buf.take pos ++ utf8EncodeChar c ++ (rest.map utf8EncodeChar).flatten)
      else smallFromIterGo (setRange buf pos (utf8EncodeChar c)) (pos + lenUtf8 c) rest

/-- SmallString::from_iter over a list of code points. -/
def smallFromIter (cs : List Nat) : SmallRepr :=
  smallFromIterGo (List.replicate SMALL_INLINE_CAPACITY 0) 0 cs

/-- Modelled from the spec (the refinement comparator): push the same
characters in order into a general growable String — whose content is the
concatenation of their UTF-8 encodings — and convert that String into a
SmallString at the end. -/
def smallFromIterNaive (cs : List Nat) : SmallRepr :=
  smallFromString ((cs.map utf8EncodeChar).flatten)

/-! ## TinyBytes / TinyString (src/crates/istring/src/tiny.rs) -/

/-- TinyBytes: a one-byte length plus a 7-byte buffer. -/
structure TinyBytes where
  len : Nat
  buf : List Nat
deriving DecidableEq

/-- TinyBytes::new: None for 8 or more bytes, otherwise copy into the
7-byte buffer. -/
def TinyBytes.new (s : List Nat) : Option TinyBytes :=
  if 8 ≤ s.length then none
  else some ⟨s.length, padTrunc s 7⟩

/-- The byte view: buf[.. len]. -/
def TinyBytes.view (t : TinyBytes) : List Nat := t.buf.take t.len

/-- TinyString::new delegates to TinyBytes::new on the bytes of the str. -/
def TinyString.new (s : List Nat) : Option TinyBytes := TinyBytes.new s

/-- The heap capacities reachable by append sequences: powers of two of at
least 32. -/
def IBytes.powCap (s : IBytes) : Prop :=
  s.is_inline = false → ∃ k, s.heapCap = 2 ^ k ∧ 32 ≤ s.heapCap

/-! ## Theorems -/

@[simp] theorem leEncode_length (n k : Nat) : (leEncode n k).length = k := by
  induction k generalizing n with
  | zero => rfl
  | succ k ih => simp [leEncode, ih]

theorem leDecode_leEncode (n k : Nat) : leDecode (leEncode n k) = n % 256 ^ k := by
  induction k generalizing n with
  | zero => simp [leEncode, leDecode, Nat.mod_one]
  | succ k ih =>
      simp only [leEncode, leDecode, ih]
      have h2 := Nat.div_add_mod (n % (256 * 256 ^ k)) 256
      have h3 : n % (256 * 256 ^ k) / 256 = n / 256 % 256 ^ k :=
        Nat.mod_mul_right_div_self n 256 (256 ^ k)
      have h4 : n % (256 * 256 ^ k) % 256 = n % 256 := Nat.mod_mod_of_dvd n ⟨256 ^ k, rfl⟩
      rw [pow_succ, mul_comm (256 ^ k) 256]
      omega

theorem np2go_ge (n : Nat) : ∀ f p, 0 < p → n ≤ p * 2 ^ f → n ≤ np2go n f p := by
  intro f
  induction f with
  | zero => intro p _ h; simpa [np2go] using h
  | succ f ih =>
      intro p hp h
      simp only [np2go]
      split
      · assumption
      · exact ih (2 * p) (by omega) (by rw [pow_succ] at h; calc n ≤ p * (2 ^ f * 2) := h
                                                               _ = 2 * p * 2 ^ f := by ring)

theorem np2go_pow (n : Nat) : ∀ f k, ∃ j, np2go n f (2 ^ k) = 2 ^ j := by
  intro f
  induction f with
  | zero => intro k; exact ⟨k, rfl⟩
  | succ f ih =>
      intro k
      simp only [np2go]
      split
      · exact ⟨k, rfl⟩
      · have h := ih (k + 1)
        rw [pow_succ] at h
        simpa [mul_comm] using h

/-- nextPow2 dominates its argument. -/
theorem nextPow2_ge (n : Nat) : n ≤ nextPow2 n := by
  have h : n ≤ 1 * 2 ^ n := by
    have := Nat.lt_two_pow n
    omega
  exact np2go_ge n n 1 (by omega) h

/-- nextPow2 is a power of two. -/
theorem nextPow2_pow (n : Nat) : ∃ j, nextPow2 n = 2 ^ j := by
  have h := np2go_pow n n 0
  simpa [nextPow2] using h

/-- If n exceeds the power of two c, then nextPow2 n is at least 2 * c. -/
theorem nextPow2_ge_double {n c k : Nat} (hc : c = 2 ^ k) (h : c < n) :
    2 * c ≤ nextPow2 n := by
  obtain ⟨j, hj⟩ := nextPow2_pow n
  have hn := nextPow2_ge n
  have hlt : 2 ^ k < 2 ^ j := by omega
  have hkj : k < j := (Nat.pow_lt_pow_iff_right (by omega)).mp hlt
  have : 2 ^ (k + 1) ≤ 2 ^ j := Nat.pow_le_pow_right (by omega) (by omega)
  rw [hj, hc]
  calc 2 * 2 ^ k = 2 ^ (k + 1) := by ring
    _ ≤ 2 ^ j := this

/-- A power of two that is at least 24 is at least 32. -/
theorem pow_ge_24 {c k : Nat} (hc : c = 2 ^ k) (h : 24 ≤ c) : 32 ≤ c := by
  rcases Nat.lt_or_ge k 5 with h5 | h5
  · interval_cases k <;> omega
  · have : (2:Nat) ^ 5 ≤ 2 ^ k := Nat.pow_le_pow_right (by omega) h5
    omega

/-! ## Helper lemmas: bytes, lists and the allocation map -/

theorem bits7 {n : Nat} (h : n < 128) :
    n &&& 128 = 0 ∧ (n ||| 128) &&& 128 = 128 ∧ (n ||| 128) &&& 127 = n := by
  interval_cases n <;> decide

theorem padTrunc_length (l : List Nat) (n : Nat) : (padTrunc l n).length = n := by
  simp [padTrunc]
  omega

theorem setRange_length {l v : List Nat} {off : Nat} (h : off + v.length ≤ l.length) :
    (setRange l off v).length = l.length := by
  simp [setRange]
  omega

theorem getD_drop (l : List Nat) (n i d : Nat) : (l.drop n).getD i d = l.getD (n + i) d := by
  induction l generalizing n with
  | nil => simp
  | cons a t ih =>
      cases n with
      | zero => simp
      | succ n => simp [Nat.succ_add, ih n]

theorem getD_append_left {l1 : List Nat} (l2 : List Nat) {i : Nat} (d : Nat)
    (h : i < l1.length) : (l1 ++ l2).getD i d = l1.getD i d := by
  induction l1 generalizing i with
  | nil => simp at h
  | cons a t ih =>
      cases i with
      | zero => simp
      | succ i => simpa using ih (by simpa using h)

theorem getD_append_right_ge {l1 l2 : List Nat} {i : Nat} (d : Nat)
    (h : l1.length ≤ i) : (l1 ++ l2).getD i d = l2.getD (i - l1.length) d := by
  induction l1 generalizing i with
  | nil => simp
  | cons a t ih =>
      cases i with
      | zero => simp at h
      | succ i => simpa using ih (by simpa using h)

theorem setRange_getD_ge {l v : List Nat} {off i : Nat} (d : Nat)
    (hoff : off ≤ l.length) (hi : off + v.length ≤ i) :
    (setRange l off v).getD i d = l.getD i d := by
  have h1 : (l.take off ++ v).length = off + v.length := by
    simp
    omega
  have h2 : (setRange l off v).getD i d = (l.drop (off + v.length)).getD (i - (off + v.length)) d := by
    have : setRange l off v = (l.take off ++ v) ++ l.drop (off + v.length) := by
      simp [setRange]
    rw [this, getD_append_right_ge d (by omega)]
    rw [h1]
  rw [h2, getD_drop]
  congr 1
  omega

theorem leEncode_getD (k : Nat) : ∀ n i d, i < k →
    (leEncode n k).getD i d = n / 256 ^ i % 256 := by
  induction k with
  | zero => intro n i d h; omega
  | succ k ih =>
      intro n i d h
      cases i with
      | zero => simp [leEncode]
      | succ i =>
          have := ih (n / 256) i d (by omega)
          simpa [leEncode, Nat.div_div_eq_div_mul, pow_succ, mul_comm] using this

theorem Mem.fresh_pos (m : Mem) : 0 < m.fresh := by
  induction m with
  | nil => simp [Mem.fresh]
  | cons a t ih => simp only [Mem.fresh, List.foldr] at ih ⊢; omega

theorem Mem.alloc_some {m : Mem} {b : List Nat} {p : Nat} {m' : Mem}
    (h : m.alloc b = some (p, m')) :
    m' = (p, b) :: m ∧ p < 2 ^ 64 ∧ 0 < p := by
  unfold Mem.alloc at h
  split at h
  · rename_i hg
    cases h
    exact ⟨rfl, by omega, m.fresh_pos⟩
  · cases h

theorem Mem.lookup_cons_self (p : Nat) (b : List Nat) (m : Mem) :
    Mem.lookup ((p, b) :: m) p = some b := by
  simp [Mem.lookup]

theorem Mem.readBytes_of {m : Mem} {p : Nat} {blk : List Nat} {n : Nat}
    (hl : m.lookup p = some blk) (h : n ≤ blk.length) :
    m.readBytes p n = some (blk.take n) := by
  simp [Mem.readBytes, hl, h]

theorem Mem.free_of {m : Mem} {p : Nat} {blk : List Nat} {c : Nat}
    (hl : m.lookup p = some blk) (hc : blk.length = c) :
    ∃ m', m.free p c = some m' := by
  induction m with
  | nil => simp [Mem.lookup] at hl
  | cons a t ih =>
      obtain ⟨q, b⟩ := a
      by_cases hq : q = p
      · subst hq
        simp [Mem.lookup] at hl
        subst hl
        exact ⟨t, by simp [Mem.free, hc]⟩
      · simp [Mem.lookup, hq] at hl
        obtain ⟨m', hm'⟩ := ih hl
        exact ⟨(q, b) :: m', by simp [Mem.free, hq, hm']⟩

theorem Mem.write_of (off : Nat) (v : List Nat) {m : Mem} {p : Nat} {blk : List Nat}
    (hl : m.lookup p = some blk) (h : off + v.length ≤ blk.length) :
    ∃ m', m.write p off v = some m' ∧ m'.lookup p = some (setRange blk off v) ∧
      ∀ q, q ≠ p → m'.lookup q = m.lookup q := by
  induction m with
  | nil => simp [Mem.lookup] at hl
  | cons a t ih =>
      obtain ⟨q, b⟩ := a
      by_cases hq : q = p
      · subst hq
        simp [Mem.lookup] at hl
        subst hl
        refine ⟨(q, setRange b off v) :: t, by simp [Mem.write, h], by simp [Mem.lookup], ?_⟩
        intro r hr
        have hqr : q ≠ r := fun h' => hr h'.symm
        simp [Mem.lookup, hqr]
      · simp [Mem.lookup, hq] at hl
        obtain ⟨m', hw, hlk, hother⟩ := ih hl
        refine ⟨(q, b) :: m', by simp [Mem.write, hq, hw], ?_, ?_⟩
        · simpa [Mem.lookup, hq] using hlk
        · intro r hr
          by_cases hrq : q = r
          · subst hrq
            simp [Mem.lookup]
          · simp [Mem.lookup, hrq, hother r hr]

/-! ## Field access on canonical representations -/


theorem IBytes.mkHeap_ubytes (p c l : Nat) :
    (mkHeap p c l).ubytes = leEncode p 8 ++ leEncode c 8 ++ leEncode l 8 := rfl

theorem IBytes.canonical_length {s : IBytes} {p c l : Nat}
    (hu : s.ubytes = leEncode p 8 ++ leEncode c 8 ++ leEncode l 8) :
    s.ubytes.length = 24 := by
  simp [hu]

theorem IBytes.canonical_heapPtr {s : IBytes} {p c l : Nat}
    (hu : s.ubytes = leEncode p 8 ++ leEncode c 8 ++ leEncode l 8)
    (hp : p < 2 ^ 64) : s.heapPtr = p := by
  have ht : s.ubytes.take 8 = leEncode p 8 := by
    rw [hu, List.append_assoc, List.take_left' (leEncode_length p 8)]
  rw [heapPtr, ht, leDecode_leEncode]
  have : (256 : Nat) ^ 8 = 2 ^ 64 := by norm_num
  rw [this]
  exact Nat.mod_eq_of_lt hp

theorem IBytes.canonical_heapCap {s : IBytes} {p c l : Nat}
    (hu : s.ubytes = leEncode p 8 ++ leEncode c 8 ++ leEncode l 8)
    (hc : c < 2 ^ 64) : s.heapCap = c := by
  have hd : s.ubytes.drop 8 = leEncode c 8 ++ leEncode l 8 := by
    rw [hu, List.append_assoc, List.drop_left' (leEncode_length p 8)]
  have ht : (s.ubytes.drop 8).take 8 = leEncode c 8 := by
    rw [hd, List.take_left' (leEncode_length c 8)]
  rw [heapCap, ht, leDecode_leEncode]
  have : (256 : Nat) ^ 8 = 2 ^ 64 := by norm_num
  rw [this]
  exact Nat.mod_eq_of_lt hc

theorem IBytes.canonical_heapLen {s : IBytes} {p c l : Nat}
    (hu : s.ubytes = leEncode p 8 ++ leEncode c 8 ++ leEncode l 8)
    (hl : l < 2 ^ 64) : s.heapLen = l := by
  have h16 : (leEncode p 8 ++ leEncode c 8).length = 16 := by simp
  have hd : s.ubytes.drop 16 = leEncode l 8 := by
    rw [hu, List.drop_left' h16]
  rw [heapLen, hd, leDecode_leEncode]
  have : (256 : Nat) ^ 8 = 2 ^ 64 := by norm_num
  rw [this]
  exact Nat.mod_eq_of_lt hl

theorem IBytes.canonical_lenByte {s : IBytes} {p c l : Nat}
    (hu : s.ubytes = leEncode p 8 ++ leEncode c 8 ++ leEncode l 8) :
    s.lenByte = l / 256 ^ 7 % 256 := by
  have h16 : (leEncode p 8 ++ leEncode c 8).length = 16 := by simp
  rw [lenByte, hu, getD_append_right_ge 0 (by simp), h16]
  simpa using leEncode_getD 8 l 7 0 (by omega)

theorem IBytes.canonical_is_inline {s : IBytes} {p c l : Nat}
    (hu : s.ubytes = leEncode p 8 ++ leEncode c 8 ++ leEncode l 8)
    (hl : l < 2 ^ 63) : s.is_inline = false := by
  have hlb : s.lenByte = l / 256 ^ 7 % 256 := canonical_lenByte hu
  have h1 : l / 256 ^ 7 < 128 := by
    have h2 : (256 : Nat) ^ 7 = 2 ^ 56 := by norm_num
    rw [h2]
    apply Nat.div_lt_of_lt_mul
    calc l < 2 ^ 63 := hl
      _ = 2 ^ 56 * 128 := by norm_num
  have h2 : s.lenByte < 128 := by
    rw [hlb]
    exact lt_of_le_of_lt (Nat.mod_le _ _) h1
  have h3 := (bits7 h2).1
  simp [is_inline, IS_INLINE, h3]

theorem IBytes.canonical_len {s : IBytes} {p c l : Nat}
    (hu : s.ubytes = leEncode p 8 ++ leEncode c 8 ++ leEncode l 8)
    (hl : l < 2 ^ 63) : s.len = l := by
  rw [len, canonical_is_inline hu hl]
  simpa using canonical_heapLen hu (by omega)

theorem IBytes.canonical_capacity {s : IBytes} {p c l : Nat}
    (hu : s.ubytes = leEncode p 8 ++ leEncode c 8 ++ leEncode l 8)
    (hl : l < 2 ^ 63) (hc : c < 2 ^ 64) : s.capacity = c := by
  rw [capacity, canonical_is_inline hu hl]
  simpa using canonical_heapCap hu hc

theorem IBytes.mkInline_ubytes (data : List Nat) (lb : Nat) :
    (mkInline data lb).ubytes = padTrunc data 23 ++ [lb] := rfl

theorem IBytes.mkInline_lenByte (data : List Nat) (lb : Nat) : (mkInline data lb).lenByte = lb := by
  have h23 : (padTrunc data 23).length = 23 := padTrunc_length data 23
  rw [lenByte, mkInline_ubytes, getD_append_right_ge 0 (by omega), h23]
  simp

theorem IBytes.mkInline_is_inline {data : List Nat} {n : Nat} (h : n < 128) :
    (mkInline data (n ||| IS_INLINE)).is_inline = true := by
  have := (bits7 h).2.1
  simp [is_inline, mkInline_lenByte, IS_INLINE, this]

theorem IBytes.mkInline_len {data : List Nat} {n : Nat} (h : n < 128) :
    (mkInline data (n ||| IS_INLINE)).len = n := by
  have h2 := (bits7 h).2.2
  rw [len, mkInline_is_inline h]
  simp [mkInline_lenByte, IS_INLINE, LEN_MASK, h2]

theorem IBytes.setLenByte_ubytes (s : IBytes) (lb : Nat) :
    (s.setLenByte lb).ubytes = s.ubytes.take 23 ++ [lb] := rfl

theorem IBytes.setLenByte_lenByte {s : IBytes} (lb : Nat) (h : s.ubytes.length = 24) :
    (s.setLenByte lb).lenByte = lb := by
  have h23 : (s.ubytes.take 23).length = 23 := by simp [h]
  rw [lenByte, setLenByte_ubytes, getD_append_right_ge 0 (by omega), h23]
  simp

theorem IBytes.setHeapLen_canonical {s : IBytes} {p c l : Nat}
    (hu : s.ubytes = leEncode p 8 ++ leEncode c 8 ++ leEncode l 8) (l2 : Nat) :
    (s.setHeapLen l2).ubytes = leEncode p 8 ++ leEncode c 8 ++ leEncode l2 8 := by
  have h16 : (leEncode p 8 ++ leEncode c 8).length = 16 := by simp
  rw [setHeapLen]
  have ht : s.ubytes.take 16 = leEncode p 8 ++ leEncode c 8 := by
    rw [hu, List.take_left' h16]
  simp [ht]

/-! ## Inversion lemmas for the IBytes operations -/


theorem IBytes.setLenByte_length {s : IBytes} (lb : Nat) (h : s.ubytes.length = 24) :
    (s.setLenByte lb).ubytes.length = 24 := by
  simp [setLenByte_ubytes, h]

theorem IBytes.wf_inline_len {s : IBytes} {m : Mem} (hw : s.wf m) (hi : s.is_inline = true) :
    s.len ≤ INLINE_CAPACITY := by
  rcases hw with ⟨_, h⟩
  rw [hi] at h
  simpa using h

theorem IBytes.wf_length {s : IBytes} {m : Mem} (hw : s.wf m) : s.ubytes.length = 24 := hw.1

theorem IBytes.wfHeap_facts {s : IBytes} {m : Mem} (h : s.wfHeap m) :
    ∃ p c l blk, s.ubytes = leEncode p 8 ++ leEncode c 8 ++ leEncode l 8 ∧
      p < 2 ^ 64 ∧ c ≤ MAX_CAPACITY ∧ l ≤ c ∧
      m.lookup p = some blk ∧ blk.length = c ∧
      s.is_inline = false ∧ s.len = l ∧ s.capacity = c ∧ s.heapPtr = p ∧ s.heapCap = c := by
  obtain ⟨p, c, l, blk, hu, hp, hc, hlc, hlk, hbl⟩ := h
  have hl63 : l < 2 ^ 63 := by
    have : MAX_CAPACITY = 2 ^ 63 - 1 := rfl
    omega
  have hc64 : c < 2 ^ 64 := by
    have : MAX_CAPACITY = 2 ^ 63 - 1 := rfl
    omega
  exact ⟨p, c, l, blk, hu, hp, hc, hlc, hlk, hbl,
    canonical_is_inline hu hl63, canonical_len hu hl63, canonical_capacity hu hl63 hc64,
    canonical_heapPtr hu hp, canonical_heapCap hu hc64⟩

theorem IBytes.wf_heap_elim {s : IBytes} {m : Mem} (hw : s.wf m) (hi : s.is_inline = false) :
    s.wfHeap m := by
  rcases hw with ⟨_, h⟩
  rw [hi] at h
  simpa using h

/-- Inversion of move_to_heap on an inline receiver. -/
theorem IBytes.move_to_heap_inv {s : IBytes} {m : Mem} {cap : Nat} {s' : IBytes} {m' : Mem}
    (hi : s.is_inline = true) (h : s.move_to_heap m cap = some (s', m')) :
    s.len ≤ cap ∧ cap ≤ MAX_CAPACITY ∧
    ∃ p, p < 2 ^ 64 ∧ s' = mkHeap p cap s.len ∧
      m' = (p, s.inlineData.take s.len ++ List.replicate (cap - s.len) 0) :: m := by
  unfold move_to_heap at h
  simp only [hi, if_true] at h
  split at h
  · cases h
  · split at h
    · cases h
    · rename_i h1 h2
      cases halloc : m.alloc (s.inlineData.take s.len ++ List.replicate (cap - s.len) 0) with
      | none => rw [halloc] at h; cases h
      | some pm =>
          obtain ⟨p, m2⟩ := pm
          obtain ⟨hm2, hp64, _⟩ := Mem.alloc_some halloc
          rw [halloc] at h
          simp only [Option.map_some'] at h
          cases h
          exact ⟨by omega, by omega, p, hp64, rfl, by rw [hm2]⟩

/-- Inversion of resize on a well-formed heap receiver. -/
theorem IBytes.resize_inv {s : IBytes} {m : Mem} {new_cap : Nat} {s' : IBytes} {m' : Mem}
    {p c l : Nat} {blk : List Nat}
    (hu : s.ubytes = leEncode p 8 ++ leEncode c 8 ++ leEncode l 8)
    (hp : p < 2 ^ 64) (hc : c ≤ MAX_CAPACITY) (hlc : l ≤ c)
    (hlk : m.lookup p = some blk) (hbl : blk.length = c)
    (h : s.resize m new_cap = some (s', m')) :
    l ≤ new_cap ∧
    ((new_cap ≤ c ∧ s' = s ∧ m' = m) ∨
     (c < new_cap ∧
      ∃ p2, p2 < 2 ^ 64 ∧ s' = mkHeap p2 (max (max (2 * c) new_cap) 8) l ∧
        max (max (2 * c) new_cap) 8 ≤ MAX_CAPACITY ∧
        m' = (p2, blk.take l ++ List.replicate (max (max (2 * c) new_cap) 8 - l) 0) :: (m.free p c).getD [])) := by
  have hl63 : l < 2 ^ 63 := by
    have : MAX_CAPACITY = 2 ^ 63 - 1 := rfl
    omega
  have hc64 : c < 2 ^ 64 := by
    have : MAX_CAPACITY = 2 ^ 63 - 1 := rfl
    omega
  have hii := canonical_is_inline hu hl63
  have hlen := canonical_len hu hl63
  have hhp := canonical_heapPtr hu hp
  have hhc := canonical_heapCap hu hc64
  unfold resize at h
  simp only [hii, if_false, Bool.false_eq_true] at h
  split at h
  · cases h
  · rename_i hnl
    rw [hlen] at hnl
    refine ⟨by omega, ?_⟩
    rw [hlen, hhp, hhc] at h
    split at h
    · rename_i hnogrow
      left
      simp only [Option.some_inj] at h
      cases h
      exact ⟨by omega, rfl, rfl⟩
    · rename_i hgrow
      right
      refine ⟨by omega, ?_⟩
      split at h
      · cases h
      · rename_i hmax
        rw [Mem.readBytes_of hlk (by omega)] at h
        obtain ⟨m1, hfree⟩ := Mem.free_of hlk hbl
        rw [hfree] at h
        simp only [Option.bind_eq_bind, Option.some_bind] at h
        cases halloc : m1.alloc (blk.take l ++ List.replicate (max (max (2 * c) new_cap) 8 - l) 0) with
        | none => rw [halloc] at h; cases h
        | some pm =>
            obtain ⟨p2, m2⟩ := pm
            obtain ⟨hm2, hp64, _⟩ := Mem.alloc_some halloc
            rw [halloc] at h
            simp only [Option.bind_eq_bind, Option.some_bind, Option.some_inj] at h
            cases h
            exact ⟨p2, hp64, rfl, by omega, by rw [hm2, hfree]; rfl⟩

theorem IBytes.lenByte_inline_facts {s : IBytes} {n : Nat} (h : s.lenByte = n ||| IS_INLINE)
    (hn : n < 128) : s.is_inline = true ∧ s.len = n := by
  have hb := bits7 hn
  have hii : s.is_inline = true := by
    simp [is_inline, h, IS_INLINE, hb.2.1]
  refine ⟨hii, ?_⟩
  rw [len, hii]
  simp [h, IS_INLINE, LEN_MASK, hb.2.2]

theorem IBytes.wf_new (m : Mem) : IBytes.new.wf m := by
  refine ⟨by decide, ?_⟩
  show IBytes.new.len ≤ INLINE_CAPACITY
  decide

/-- One extend_from_slice step: preserves well-formedness and the power-of-two
capacity shape, adds the appended length, keeps capacity at or above length,
grows exactly to nextPow2(new length) when the capacity is exceeded, and
keeps the capacity unchanged otherwise. -/
theorem IBytes.extend_step {s : IBytes} {m : Mem} {bs : List Nat} {s' : IBytes} {m' : Mem}
    (hw : s.wf m) (hpow : powCap s)
    (h : s.extend_from_slice m bs = some (s', m')) :
    s'.wf m' ∧ powCap s' ∧
    s'.len = s.len + bs.length ∧ s'.len ≤ s'.capacity ∧
    (s.capacity < s.len + bs.length → s'.capacity = nextPow2 (s.len + bs.length)) ∧
    (s.len + bs.length ≤ s.capacity → s'.capacity = s.capacity) := by
  have hL := wf_length hw
  simp only [extend_from_slice, Option.bind_eq_bind] at h
  cases hi : s.is_inline with
  | true =>
      have hlen23 : s.len ≤ 23 := wf_inline_len hw hi
      have hcap : s.capacity = INLINE_CAPACITY := by rw [capacity, hi, if_pos rfl]
      simp only [hi, if_true] at h
      by_cases hbig : s.len + bs.length > INLINE_CAPACITY
      · -- promotion to the heap with capacity nextPow2 (new length)
        have hbig23 : 23 < s.len + bs.length := hbig
        rw [if_pos hbig] at h
        cases hm : s.move_to_heap m (nextPow2 (s.len + bs.length)) with
        | none => rw [hm] at h; cases h
        | some sm1 =>
            obtain ⟨s1, m1⟩ := sm1
            obtain ⟨hlc, hcapmax, p, hp64, hs1, hm1⟩ := move_to_heap_inv hi hm
            rw [hm] at h
            simp only [Option.some_bind] at h
            have hl63 : s.len < 2 ^ 63 := by omega
            have hcapmax63 : nextPow2 (s.len + bs.length) ≤ 2 ^ 63 - 1 := hcapmax
            have hu1 : s1.ubytes = leEncode p 8 ++ leEncode (nextPow2 (s.len + bs.length)) 8 ++
                leEncode s.len 8 := by rw [hs1]; rfl
            have hii1 : s1.is_inline = false := canonical_is_inline hu1 hl63
            have hhp1 : s1.heapPtr = p := canonical_heapPtr hu1 hp64
            have hnp : s.len + bs.length ≤ nextPow2 (s.len + bs.length) := nextPow2_ge _
            have hbuflen : (s.inlineData.take s.len ++
                List.replicate (nextPow2 (s.len + bs.length) - s.len) 0).length
                = nextPow2 (s.len + bs.length) := by
              have h1 : s.inlineData.length = 23 := by
                simp [inlineData, hL]
              simp [List.length_take, h1]
              omega
            have hlkup : m1.lookup p = some (s.inlineData.take s.len ++
                List.replicate (nextPow2 (s.len + bs.length) - s.len) 0) := by
              rw [hm1]; exact Mem.lookup_cons_self _ _ _
            obtain ⟨m2, hwri, hlk2, _⟩ :=
              Mem.write_of s.len bs hlkup (by rw [hbuflen]; omega)
            rw [hii1] at h
            simp only [Bool.false_eq_true, if_false, hhp1, hwri, Option.map_some',
              Option.some_bind] at h
            have hc64 : nextPow2 (s.len + bs.length) < 2 ^ 64 := by omega
            have hcap1 : s1.capacity = nextPow2 (s.len + bs.length) :=
              canonical_capacity hu1 hl63 hc64
            have hcond : s.len + bs.length ≤ s1.capacity := by rw [hcap1]; omega
            simp only [set_len, if_pos hcond, hii1, Bool.false_eq_true, if_false,
              Option.some_bind, Option.some_inj, Prod.mk.injEq] at h
            obtain ⟨hs', hm'⟩ := h
            subst hs'
            subst hm'
            have hu3 : (s1.setHeapLen (s.len + bs.length)).ubytes =
                leEncode p 8 ++ leEncode (nextPow2 (s.len + bs.length)) 8 ++
                leEncode (s.len + bs.length) 8 := setHeapLen_canonical hu1 _
            have hnl63 : s.len + bs.length < 2 ^ 63 := by omega
            have hii3 : (s1.setHeapLen (s.len + bs.length)).is_inline = false :=
              canonical_is_inline hu3 hnl63
            have hlen3 : (s1.setHeapLen (s.len + bs.length)).len = s.len + bs.length :=
              canonical_len hu3 hnl63
            have hcap3 : (s1.setHeapLen (s.len + bs.length)).capacity =
                nextPow2 (s.len + bs.length) := canonical_capacity hu3 hnl63 hc64
            have hhc3 : (s1.setHeapLen (s.len + bs.length)).heapCap =
                nextPow2 (s.len + bs.length) := canonical_heapCap hu3 hc64
            have hblk2len : (setRange (s.inlineData.take s.len ++
                List.replicate (nextPow2 (s.len + bs.length) - s.len) 0) s.len bs).length =
                nextPow2 (s.len + bs.length) := by
              rw [setRange_length (by rw [hbuflen]; omega), hbuflen]
            refine ⟨⟨canonical_length hu3, ?_⟩, ?_, hlen3, ?_, fun _ => hcap3, ?_⟩
            · rw [hii3]
              simp only [Bool.false_eq_true, if_false]
              exact ⟨p, nextPow2 (s.len + bs.length), s.len + bs.length, _, hu3, hp64,
                hcapmax, by omega, hlk2, hblk2len⟩
            · intro _
              obtain ⟨k, hk⟩ := nextPow2_pow (s.len + bs.length)
              refine ⟨k, by rw [hhc3, hk], ?_⟩
              rw [hhc3]
              exact pow_ge_24 hk (by omega)
            · rw [hlen3, hcap3]
              omega
            · intro hle
              rw [hcap] at hle
              omega
      · -- stays inline: write into the inline buffer and set the length byte
        have hle23 : s.len + bs.length ≤ 23 := by
          have he : INLINE_CAPACITY = 23 := rfl
          rw [he] at hbig
          omega
        rw [if_neg hbig] at h
        simp only [Option.some_bind] at h
        rw [hi] at h
        simp only [if_true, if_pos (show s.len + bs.length ≤ INLINE_CAPACITY from hle23),
          Option.some_bind] at h
        have hlb2 : (⟨setRange s.ubytes s.len bs⟩ : IBytes).lenByte = s.lenByte := by
          show (setRange s.ubytes s.len bs).getD 23 0 = s.ubytes.getD 23 0
          exact setRange_getD_ge 0 (by omega) (by omega)
        have hii2 : (⟨setRange s.ubytes s.len bs⟩ : IBytes).is_inline = true := by
          rw [is_inline, hlb2]
          exact hi
        have hL2 : (setRange s.ubytes s.len bs).length = 24 := by
          rw [setRange_length (by omega)]
          exact hL
        have hcap2 : (⟨setRange s.ubytes s.len bs⟩ : IBytes).capacity = INLINE_CAPACITY := by
          rw [capacity, hii2, if_pos rfl]
        have hcond2 : s.len + bs.length ≤ (⟨setRange s.ubytes s.len bs⟩ : IBytes).capacity := by
          rw [hcap2]
          exact hle23
        simp only [set_len, if_pos hcond2, hii2, if_true, Option.some_bind,
          Option.some_inj, Prod.mk.injEq] at h
        obtain ⟨hs', hm'⟩ := h
        subst hs'
        subst hm'
        have hfacts := lenByte_inline_facts
          (setLenByte_lenByte (s := ⟨setRange s.ubytes s.len bs⟩)
            ((s.len + bs.length) ||| IS_INLINE) hL2)
          (n := s.len + bs.length) (by omega)
        have hcap3 : ((⟨setRange s.ubytes s.len bs⟩ : IBytes).setLenByte
            ((s.len + bs.length) ||| IS_INLINE)).capacity = INLINE_CAPACITY := by
          rw [capacity, hfacts.1, if_pos rfl]
        refine ⟨⟨?_, ?_⟩, ?_, hfacts.2, ?_, ?_, ?_⟩
        · exact setLenByte_length _ hL2
        · rw [hfacts.1]
          simp only [if_true]
          rw [hfacts.2]
          exact hle23
        · intro hfalse
          rw [hfacts.1] at hfalse
          cases hfalse
        · rw [hfacts.2, hcap3]
          exact hle23
        · intro habs
          rw [hcap] at habs
          omega
        · intro _
          rw [hcap3, hcap]
  | false =>
      obtain ⟨p, c, l, blk, hu, hp, hc, hlc, hlk, hbl, _, hlen, hcap, hhp, hhc⟩ :=
        wfHeap_facts (wf_heap_elim hw hi)
      subst hlen
      obtain ⟨k, hk, h32⟩ := hpow hi
      rw [hhc] at hk h32
      have hcmax : c ≤ 2 ^ 63 - 1 := hc
      simp only [hi, Bool.false_eq_true, if_false] at h
      by_cases hbig : s.len + bs.length > s.capacity
      · -- heap growth through resize to nextPow2 (new length)
        rw [if_pos hbig] at h
        rw [hcap] at hbig
        cases hr : s.resize m (nextPow2 (s.len + bs.length)) with
        | none => rw [hr] at h; cases h
        | some sm1 =>
            obtain ⟨s1, m1⟩ := sm1
            obtain ⟨hlnp, hres⟩ := resize_inv hu hp hc hlc hlk hbl hr
            cases hres with
            | inl hng =>
                exfalso
                have := nextPow2_ge (s.len + bs.length)
                omega
            | inr hgrow =>
                obtain ⟨hclt, p2, hp2, hs1, hmaxcap, hm1⟩ := hgrow
                have hnp2c : 2 * c ≤ nextPow2 (s.len + bs.length) := by
                  refine nextPow2_ge_double hk ?_
                  omega
                have hgemax : s.len + bs.length ≤ nextPow2 (s.len + bs.length) :=
                  nextPow2_ge _
                have hmaxeq : max (max (2 * c) (nextPow2 (s.len + bs.length))) 8 =
                    nextPow2 (s.len + bs.length) := by
                  omega
                rw [hmaxeq] at hs1 hm1 hmaxcap
                rw [hr] at h
                simp only [Option.some_bind] at h
                have hu1 : s1.ubytes = leEncode p2 8 ++
                    leEncode (nextPow2 (s.len + bs.length)) 8 ++ leEncode s.len 8 := by
                  rw [hs1]; rfl
                have hl63 : s.len < 2 ^ 63 := by omega
                have hii1 : s1.is_inline = false := canonical_is_inline hu1 hl63
                have hhp1 : s1.heapPtr = p2 := canonical_heapPtr hu1 hp2
                have hcapmax63 : nextPow2 (s.len + bs.length) ≤ 2 ^ 63 - 1 := hmaxcap
                have hbuflen : (blk.take s.len ++
                    List.replicate (nextPow2 (s.len + bs.length) - s.len) 0).length
                    = nextPow2 (s.len + bs.length) := by
                  simp [List.length_take, hbl]
                  omega
                have hlkup : m1.lookup p2 = some (blk.take s.len ++
                    List.replicate (nextPow2 (s.len + bs.length) - s.len) 0) := by
                  rw [hm1]; exact Mem.lookup_cons_self _ _ _
                obtain ⟨m2, hwri, hlk2, _⟩ :=
                  Mem.write_of s.len bs hlkup (by rw [hbuflen]; omega)
                rw [hii1] at h
                simp only [Bool.false_eq_true, if_false, hhp1, hwri, Option.map_some',
                  Option.some_bind] at h
                have hc64 : nextPow2 (s.len + bs.length) < 2 ^ 64 := by omega
                have hcap1 : s1.capacity = nextPow2 (s.len + bs.length) :=
                  canonical_capacity hu1 hl63 hc64
                have hcond : s.len + bs.length ≤ s1.capacity := by
                  rw [hcap1]
                  omega
                simp only [set_len, if_pos hcond, hii1, Bool.false_eq_true, if_false,
                  Option.some_bind, Option.some_inj, Prod.mk.injEq] at h
                obtain ⟨hs', hm'⟩ := h
                subst hs'
                subst hm'
                have hu3 : (s1.setHeapLen (s.len + bs.length)).ubytes =
                    leEncode p2 8 ++ leEncode (nextPow2 (s.len + bs.length)) 8 ++
                    leEncode (s.len + bs.length) 8 := setHeapLen_canonical hu1 _
                have hnl63 : s.len + bs.length < 2 ^ 63 := by omega
                have hii3 : (s1.setHeapLen (s.len + bs.length)).is_inline = false :=
                  canonical_is_inline hu3 hnl63
                have hlen3 : (s1.setHeapLen (s.len + bs.length)).len = s.len + bs.length :=
                  canonical_len hu3 hnl63
                have hcap3 : (s1.setHeapLen (s.len + bs.length)).capacity =
                    nextPow2 (s.len + bs.length) := canonical_capacity hu3 hnl63 hc64
                have hhc3 : (s1.setHeapLen (s.len + bs.length)).heapCap =
                    nextPow2 (s.len + bs.length) := canonical_heapCap hu3 hc64
                have hblk2len : (setRange (blk.take s.len ++
                    List.replicate (nextPow2 (s.len + bs.length) - s.len) 0)
                    s.len bs).length = nextPow2 (s.len + bs.length) := by
                  rw [setRange_length (by rw [hbuflen]; omega), hbuflen]
                refine ⟨⟨canonical_length hu3, ?_⟩, ?_, hlen3, ?_, fun _ => hcap3, ?_⟩
                · rw [hii3]
                  simp only [Bool.false_eq_true, if_false]
                  exact ⟨p2, nextPow2 (s.len + bs.length), s.len + bs.length, _, hu3, hp2,
                    hmaxcap, by omega, hlk2, hblk2len⟩
                · intro _
                  obtain ⟨j, hj⟩ := nextPow2_pow (s.len + bs.length)
                  refine ⟨j, by rw [hhc3, hj], ?_⟩
                  rw [hhc3]
                  omega
                · rw [hlen3, hcap3]
                  omega
                · intro habs
                  rw [hcap] at habs
                  omega
      · -- fits in the current heap capacity: plain write and length update
        rw [if_neg hbig] at h
        rw [hcap] at hbig
        simp only [Option.some_bind] at h
        rw [hi] at h
        obtain ⟨m2, hwri, hlk2, _⟩ := Mem.write_of s.len bs hlk (by omega)
        simp only [Bool.false_eq_true, if_false, hhp, hwri, Option.map_some',
          Option.some_bind] at h
        have hcond : s.len + bs.length ≤ s.capacity := by
          rw [hcap]
          omega
        simp only [set_len, if_pos hcond, hi, Bool.false_eq_true, if_false,
          Option.some_bind, Option.some_inj, Prod.mk.injEq] at h
        obtain ⟨hs', hm'⟩ := h
        subst hs'
        subst hm'
        have hu3 : (s.setHeapLen (s.len + bs.length)).ubytes =
            leEncode p 8 ++ leEncode c 8 ++ leEncode (s.len + bs.length) 8 :=
          setHeapLen_canonical hu _
        have hnl63 : s.len + bs.length < 2 ^ 63 := by omega
        have hc64 : c < 2 ^ 64 := by omega
        have hii3 : (s.setHeapLen (s.len + bs.length)).is_inline = false :=
          canonical_is_inline hu3 hnl63
        have hlen3 : (s.setHeapLen (s.len + bs.length)).len = s.len + bs.length :=
          canonical_len hu3 hnl63
        have hcap3 : (s.setHeapLen (s.len + bs.length)).capacity = c :=
          canonical_capacity hu3 hnl63 hc64
        have hhc3 : (s.setHeapLen (s.len + bs.length)).heapCap = c :=
          canonical_heapCap hu3 hc64
        have hblklen : (setRange blk s.len bs).length = c := by
          rw [setRange_length (by omega)]
          exact hbl
        refine ⟨⟨canonical_length hu3, ?_⟩, ?_, hlen3, ?_, ?_, ?_⟩
        · rw [hii3]
          simp only [Bool.false_eq_true, if_false]
          exact ⟨p, c, s.len + bs.length, _, hu3, hp, hc, by omega, hlk2, hblklen⟩
        · intro _
          exact ⟨k, by rw [hhc3]; exact hk, by rw [hhc3]; exact h32⟩
        · rw [hlen3, hcap3]
          omega
        · intro habs
          rw [hcap] at habs
          omega
        · intro _
          rw [hcap3, hcap]

theorem IBytes.wf_len_le_cap {s : IBytes} {m : Mem} (hw : s.wf m) : s.len ≤ s.capacity := by
  cases hi : s.is_inline with
  | true =>
      rw [capacity, hi, if_pos rfl]
      exact wf_inline_len hw hi
  | false =>
      obtain ⟨p, c, l, blk, _, _, _, hlc, _, _, _, hlen, hcap, _, _⟩ :=
        wfHeap_facts (wf_heap_elim hw hi)
      rw [hlen, hcap]
      exact hlc

theorem IBytes.foldl_inv : ∀ (ops : List BOp) (st : IBytes × Mem) (s : IBytes) (m : Mem),
    st.1.wf st.2 → powCap st.1 → List.foldlM applyOp st ops = some (s, m) →
    s.wf m ∧ powCap s := by
  intro ops
  induction ops with
  | nil =>
      intro st s m hw hp h
      simp only [List.foldlM] at h
      cases h
      exact ⟨hw, hp⟩
  | cons op rest ih =>
      intro st s m hw hp h
      simp only [List.foldlM, Option.bind_eq_bind] at h
      cases happ : applyOp st op with
      | none => rw [happ] at h; cases h
      | some st1 =>
          rw [happ] at h
          simp only [Option.some_bind] at h
          obtain ⟨s1, m1⟩ := st1
          have hstep : st.1.extend_from_slice st.2 (match op with
              | BOp.push b => [b]
              | BOp.extend bs => bs) = some (s1, m1) := by
            cases op with
            | push b => exact happ
            | extend bs => exact happ
          obtain ⟨hw1, hp1, _⟩ := extend_step hw hp hstep
          exact ih (s1, m1) s m hw1 hp1 h

theorem IBytes.runOps_inv {ops : List BOp} {s : IBytes} {m : Mem}
    (h : runOps ops = some (s, m)) : s.wf m ∧ powCap s :=
  foldl_inv ops (IBytes.new, []) s m (wf_new []) (by intro hfalse; cases hfalse) h

/-- The success of shrink on a well-formed heap-resident container, with the
slice view preserved. -/
theorem IBytes.shrink_heap_ok {s : IBytes} {m : Mem} {bs : List Nat}
    (hw : s.wf m) (hi : s.is_inline = false) (hsl : s.as_slice m = some bs) :
    ∃ s' m', s.shrink m = some (s', m') ∧ s'.as_slice m' = some bs := by
  obtain ⟨p, c, l, blk, hu, hp, hc, hlc, hlk, hbl, _, hlen, hcap, hhp, hhc⟩ :=
    wfHeap_facts (wf_heap_elim hw hi)
  have hL := wf_length hw
  simp only [as_slice, hi, Bool.false_eq_true, if_false, hhp, hlen] at hsl
  rw [Mem.readBytes_of hlk (by omega)] at hsl
  have hbs : bs = blk.take l := by
    cases hsl
    rfl
  have hbslen : bs.length = l := by
    rw [hbs]
    simp [List.length_take]
    omega
  by_cases hsmall : l ≤ 23
  · -- the content moves back inline and the heap buffer is freed
    obtain ⟨m1, hfree⟩ := Mem.free_of hlk hbl
    have hread : m.readBytes p l = some (blk.take l) := Mem.readBytes_of hlk (by omega)
    refine ⟨⟨setRange (s.setLenByte (l ||| IS_INLINE)).ubytes 0 (blk.take l)⟩, m1, ?_, ?_⟩
    · simp only [shrink, hlen, if_pos (show l ≤ INLINE_CAPACITY from hsmall), hhp, hhc,
        Option.bind_eq_bind, hread, Option.some_bind, hfree]
    · have hL1 : (s.setLenByte (l ||| IS_INLINE)).ubytes.length = 24 :=
        setLenByte_length _ hL
      have hlb1 : (s.setLenByte (l ||| IS_INLINE)).lenByte = l ||| IS_INLINE :=
        setLenByte_lenByte _ hL
      have hlb2 : (⟨setRange (s.setLenByte (l ||| IS_INLINE)).ubytes 0 (blk.take l)⟩ :
          IBytes).lenByte = l ||| IS_INLINE := by
        show (setRange (s.setLenByte (l ||| IS_INLINE)).ubytes 0 (blk.take l)).getD 23 0
          = l ||| IS_INLINE
        rw [setRange_getD_ge 0 (by omega) (by simp [List.length_take]; omega)]
        exact hlb1
      have hfacts := lenByte_inline_facts hlb2 (n := l) (by omega)
      rw [as_slice, hfacts.1, if_pos rfl, hfacts.2]
      have hcl : (blk.take l).length = l := by
        simp [List.length_take]
        omega
      have hdata : (⟨setRange (s.setLenByte (l ||| IS_INLINE)).ubytes 0 (blk.take l)⟩ :
          IBytes).inlineData.take l = blk.take l := by
        show ((setRange (s.setLenByte (l ||| IS_INLINE)).ubytes 0 (blk.take l)).take 23).take l
          = blk.take l
        rw [List.take_take, min_eq_left hsmall]
        have : setRange (s.setLenByte (l ||| IS_INLINE)).ubytes 0 (blk.take l)
            = blk.take l ++ (s.setLenByte (l ||| IS_INLINE)).ubytes.drop l := by
          simp [setRange, hcl]
        rw [this]
        exact List.take_left' hcl
      rw [hdata, if_pos (show l ≤ INLINE_CAPACITY from hsmall), hbs]
  · -- resize(len) delegates to a zero reserve: a no-op
    refine ⟨s, m, ?_, ?_⟩
    · simp only [shrink, hlen, if_neg (show ¬ l ≤ INLINE_CAPACITY from hsmall), resize, hi,
        Bool.false_eq_true, if_false, hhp, hhc]
      rw [if_neg (show ¬ l < l by omega), if_pos (show c - l ≥ l - l by omega)]
    · simp only [as_slice, hi, Bool.false_eq_true, if_false, hhp, hlen]
      rw [Mem.readBytes_of hlk (by omega), hbs]

/-! ## Auxiliary facts about UTF-8 encodings -/

theorem utf8EncodeChar_length (c : Nat) : (utf8EncodeChar c).length = lenUtf8 c := by
  unfold utf8EncodeChar lenUtf8
  split_ifs <;> simp

theorem utf8EncodeChar_ge_two {c : Nat} (h : 128 ≤ c) : 2 ≤ (utf8EncodeChar c).length := by
  unfold utf8EncodeChar
  split_ifs with h1 h2 h3
  · omega
  · simp
  · simp
  · simp

/-- The single byte 0xC3 is not the encoding of any scalar value sequence. -/
theorem not_valid_utf8_single_195 : ¬ ValidUtf8 [195] := by
  rintro ⟨cs, _, hb⟩
  cases cs with
  | nil => simp at hb
  | cons c rest =>
      rcases Nat.lt_or_ge c 128 with hc | hc
      · have henc : utf8EncodeChar c = [c] := by simp [utf8EncodeChar, hc]
        rw [List.map_cons, List.flatten_cons, henc] at hb
        simp at hb
        omega
      · have h2 := utf8EncodeChar_ge_two hc
        have hlen := congrArg List.length hb
        rw [List.map_cons, List.flatten_cons] at hlen
        simp at hlen
        omega

theorem padTrunc_take {l : List Nat} {n : Nat} (h : l.length ≤ n) :
    (padTrunc l n).take l.length = l := by
  rw [padTrunc, List.take_of_length_le h]
  exact List.take_left l _

/-! ## Claim theorems -/

/-- Claim C1 (code_bug evaluation): a heap-resident container of length 24
and capacity 32 (obtained by appending 24 bytes to an empty container) keeps
capacity 32 after shrink(), although 24 exceeds the inline capacity, because
resize(len) delegates to a zero-sized Vec::reserve, which never shrinks; the
doc comment of shrink() promises capacity == length. -/
theorem shrink_keeps_capacity_at_32 :
    IBytes.extend_from_slice IBytes.new [] (List.replicate 24 7)
      = some (IBytes.mkHeap 1 32 24, [(1, List.replicate 24 7 ++ List.replicate 8 0)]) ∧
    IBytes.shrink (IBytes.mkHeap 1 32 24) [(1, List.replicate 24 7 ++ List.replicate 8 0)]
      = some (IBytes.mkHeap 1 32 24, [(1, List.replicate 24 7 ++ List.replicate 8 0)]) ∧
    (IBytes.mkHeap 1 32 24).len = 24 ∧ (IBytes.mkHeap 1 32 24).capacity = 32 ∧
    INLINE_CAPACITY < (IBytes.mkHeap 1 32 24).len ∧
    (IBytes.mkHeap 1 32 24).capacity ≠ (IBytes.mkHeap 1 32 24).len := by
  decide

/-- Claim C2 (code_bug evaluation): the IString holding the two UTF-8 bytes
of 0xC3 0xA9 (a valid two-byte sequence) truncated at 1 exposes the lone
byte 0xC3 through the string view; that byte is rejected by the validator
and is not a concatenation of scalar-value encodings, so truncate breaks
the UTF-8 invariant of the text container. -/
theorem truncate_leaves_invalid_utf8 :
    IBytes.from_slice [195, 169] []
      = some (IBytes.mkInline [195, 169] (2 ||| IS_INLINE), []) ∧
    (∃ t : IString,
      IString.truncate ⟨IBytes.mkInline [195, 169] (2 ||| IS_INLINE)⟩ 1 = some t ∧
      t.as_str_bytes [] = some [195]) ∧
    runUtf8Validation [195, 169] = none ∧
    runUtf8Validation [195] = some ⟨0, none⟩ ∧
    ¬ ValidUtf8 [195] := by
  refine ⟨by decide, ⟨⟨(IBytes.mkInline [195, 169] (2 ||| IS_INLINE)).setLenByte
    (1 ||| IS_INLINE)⟩, by decide, by decide⟩, by decide, by decide,
    not_valid_utf8_single_195⟩

/-- Claim C3 (counterexample): an owned vector holding exactly
INLINE_CAPACITY = 23 bytes (with its nonzero capacity) is adopted as a
heap-resident container, while slice construction from the same 23 bytes
stays inline — owned-buffer construction does not follow the length
threshold. -/
theorem from_vec_23_bytes_heap :
    (IBytes.from_vec 1 23 23).as_slice [(1, List.replicate 23 7)]
      = some (List.replicate 23 7) ∧
    (List.replicate 23 7).length = INLINE_CAPACITY ∧
    (IBytes.from_vec 1 23 23).is_inline = false ∧
    IBytes.from_slice (List.replicate 23 7) []
      = some (IBytes.mkInline (List.replicate 23 7) (23 ||| IS_INLINE), []) ∧
    (IBytes.mkInline (List.replicate 23 7) (23 ||| IS_INLINE)).is_inline = true := by
  decide

/-- Claim C6 (counterexample): reserve_exact(1) on the empty inline container
requests capacity() + 1 = 24 and moves to a heap buffer of capacity 24,
although length + additional = 1 — reserve_exact does round up. -/
theorem reserve_exact_rounds_up :
    IBytes.reserve_exact IBytes.new [] 1
      = some (IBytes.mkHeap 1 24 0, [(1, List.replicate 24 0)]) ∧
    (IBytes.mkHeap 1 24 0).capacity = 24 ∧
    IBytes.new.len + 1 = 1 ∧ (24 : Nat) ≠ 1 := by
  decide

/-- Claim C3 (amended): slice construction decides the representation by
length against the inline capacity (round-trip in both regimes), while
owned-vector construction is a zero-copy adoption decided by the vector's
capacity: nonzero capacity yields a heap-resident container regardless of
length, zero capacity yields the empty inline container; the slice view
round-trips in every case. -/
theorem construction_roundtrip :
    (∀ (bs : List Nat) (m : Mem) (s : IBytes) (m' : Mem),
      IBytes.from_slice bs m = some (s, m') →
      (bs.length ≤ INLINE_CAPACITY → s.is_inline = true ∧ s.as_slice m' = some bs) ∧
      (INLINE_CAPACITY < bs.length → bs.length ≤ MAX_CAPACITY →
        s.is_inline = false ∧ s.as_slice m' = some bs)) ∧
    (∀ (p l c : Nat) (m : Mem) (blk : List Nat),
      m.lookup p = some blk → blk.length = c → l ≤ c → p < 2 ^ 64 → c ≤ MAX_CAPACITY →
      (c ≠ 0 → (IBytes.from_vec p l c).is_inline = false ∧
        (IBytes.from_vec p l c).as_slice m = some (blk.take l)) ∧
      (c = 0 → (IBytes.from_vec p l c).is_inline = true ∧
        (IBytes.from_vec p l c).len = 0 ∧
        (IBytes.from_vec p l c).as_slice m = some [])) := by
  constructor
  · intro bs m s m' h
    constructor
    · intro hle
      rw [IBytes.from_slice, if_neg (by omega)] at h
      simp only [Option.some_inj, Prod.mk.injEq] at h
      obtain ⟨hs, _⟩ := h
      subst hs
      have hlb := IBytes.mkInline_lenByte bs (bs.length ||| IS_INLINE)
      have he23 : INLINE_CAPACITY = 23 := rfl
      rw [he23] at hle
      have hfacts := IBytes.lenByte_inline_facts hlb (by omega)
      refine ⟨hfacts.1, ?_⟩
      rw [IBytes.as_slice, hfacts.1, if_pos rfl, hfacts.2,
        if_pos (show bs.length ≤ INLINE_CAPACITY by rw [he23]; omega)]
      have hd : (IBytes.mkInline bs (bs.length ||| IS_INLINE)).inlineData = padTrunc bs 23 := by
        show ((padTrunc bs 23 ++ [bs.length ||| IS_INLINE]).take 23) = padTrunc bs 23
        exact List.take_left' (padTrunc_length bs 23)
      rw [hd, padTrunc_take (by omega)]
    · intro hgt hmax
      rw [IBytes.from_slice, if_pos (by omega)] at h
      cases halloc : m.alloc bs with
      | none => rw [halloc] at h; cases h
      | some pm =>
          obtain ⟨p, m2⟩ := pm
          obtain ⟨hm2, hp64, _⟩ := Mem.alloc_some halloc
          rw [halloc] at h
          simp only [Option.map_some', Option.some_inj, Prod.mk.injEq] at h
          obtain ⟨hs, hm'⟩ := h
          subst hs
          subst hm'
          have hl63 : bs.length < 2 ^ 63 := by
            have he : MAX_CAPACITY = 2 ^ 63 - 1 := rfl
            rw [he] at hmax
            omega
          have hu : (IBytes.mkHeap p bs.length bs.length).ubytes =
              leEncode p 8 ++ leEncode bs.length 8 ++ leEncode bs.length 8 := rfl
          have hii := IBytes.canonical_is_inline hu hl63
          have hlen := IBytes.canonical_len hu hl63
          have hhp := IBytes.canonical_heapPtr hu hp64
          refine ⟨hii, ?_⟩
          rw [IBytes.as_slice, hii]
          simp only [Bool.false_eq_true, if_false, hhp, hlen]
          rw [hm2, Mem.readBytes_of (Mem.lookup_cons_self p bs m) (le_refl _),
            List.take_length]
  · intro p l c m blk hlk hbl hlc hp64 hmax
    constructor
    · intro hc0
      rw [IBytes.from_vec, if_pos hc0]
      have hl63 : l < 2 ^ 63 := by
        have he : MAX_CAPACITY = 2 ^ 63 - 1 := rfl
        rw [he] at hmax
        omega
      have hu : (IBytes.mkHeap p c l).ubytes =
          leEncode p 8 ++ leEncode c 8 ++ leEncode l 8 := rfl
      have hii := IBytes.canonical_is_inline hu hl63
      have hlen := IBytes.canonical_len hu hl63
      have hhp := IBytes.canonical_heapPtr hu hp64
      refine ⟨hii, ?_⟩
      rw [IBytes.as_slice, hii]
      simp only [Bool.false_eq_true, if_false, hhp, hlen]
      exact Mem.readBytes_of hlk (by omega)
    · intro hc0
      subst hc0
      rw [IBytes.from_vec, if_neg (by omega)]
      exact ⟨by decide, by decide, rfl⟩

/-- Witness for claim C3: a 2-byte slice stays inline with its content, and
a 2-byte vector with capacity 4 is adopted heap-resident with its content. -/
theorem construction_roundtrip_witness :
    (IBytes.mkInline [5, 6] (2 ||| IS_INLINE)).is_inline = true ∧
    (IBytes.mkInline [5, 6] (2 ||| IS_INLINE)).as_slice [] = some [5, 6] ∧
    (IBytes.from_vec 1 2 4).is_inline = false ∧
    (IBytes.from_vec 1 2 4).as_slice [(1, [5, 6, 0, 0])] = some [5, 6] := by
  have h1 := (construction_roundtrip.1 [5, 6] [] (IBytes.mkInline [5, 6] (2 ||| IS_INLINE)) []
    (by decide)).1 (by decide)
  have h2 := (construction_roundtrip.2 1 2 4 [(1, [5, 6, 0, 0])] [5, 6, 0, 0]
    (by decide) (by decide) (by decide) (by decide) (by decide)).1 (by decide)
  exact ⟨h1.1, h1.2, h2.1, h2.2⟩

/-- Claim C4: equality, the data fed to the hasher, and ordering are
functions of the slice views alone, for any two containers in any mix of
representations. -/
theorem eq_hash_ord_slice_view :
    ∀ (a b : IBytes) (m : Mem) (x y : List Nat),
      a.as_slice m = some x → b.as_slice m = some y →
      (x = y → a.beqSem b m = some true ∧ a.hashFeed m = b.hashFeed m) ∧
      a.cmpSem b m = some (listCmp x y) := by
  intro a b m x y hx hy
  refine ⟨?_, ?_⟩
  · rintro rfl
    constructor
    · simp [IBytes.beqSem, hx, hy]
    · simp [IBytes.hashFeed, hx, hy]
  · simp [IBytes.cmpSem, hx, hy]

/-- Witness for claim C4: a heap-resident and an inline container with the
same three bytes compare equal, feed the same data to the hasher and
compare as their views do. -/
theorem eq_hash_ord_witness :
    (IBytes.from_vec 1 3 3).is_inline = false ∧
    (IBytes.mkInline [1, 2, 3] (3 ||| IS_INLINE)).is_inline = true ∧
    (IBytes.from_vec 1 3 3).beqSem (IBytes.mkInline [1, 2, 3] (3 ||| IS_INLINE))
      [(1, [1, 2, 3])] = some true ∧
    (IBytes.from_vec 1 3 3).hashFeed [(1, [1, 2, 3])] =
      (IBytes.mkInline [1, 2, 3] (3 ||| IS_INLINE)).hashFeed [(1, [1, 2, 3])] ∧
    (IBytes.from_vec 1 3 3).cmpSem (IBytes.mkInline [1, 2, 3] (3 ||| IS_INLINE))
      [(1, [1, 2, 3])] = some (listCmp [1, 2, 3] [1, 2, 3]) := by
  have h := eq_hash_ord_slice_view (IBytes.from_vec 1 3 3)
    (IBytes.mkInline [1, 2, 3] (3 ||| IS_INLINE)) [(1, [1, 2, 3])] [1, 2, 3] [1, 2, 3]
    (by decide) (by decide)
  exact ⟨by decide, by decide, (h.1 rfl).1, (h.1 rfl).2, h.2⟩

/-- Claim C5: along every push/extend_from_slice sequence from the empty
container, capacity ≥ length holds at every state, and an append whose new
length exceeds the current capacity grows the capacity to exactly the next
power of two ≥ the new length, while an append that fits leaves the
capacity unchanged. -/
theorem amortized_growth :
    ∀ (ops : List BOp) (s : IBytes) (m : Mem), runOps ops = some (s, m) →
      s.len ≤ s.capacity ∧
      ∀ (bs : List Nat) (s' : IBytes) (m' : Mem),
        s.extend_from_slice m bs = some (s', m') →
        s'.len = s.len + bs.length ∧ s'.len ≤ s'.capacity ∧
        (s.capacity < s.len + bs.length → s'.capacity = nextPow2 (s.len + bs.length)) ∧
        (s.len + bs.length ≤ s.capacity → s'.capacity = s.capacity) := by
  intro ops s m h
  obtain ⟨hw, hp⟩ := IBytes.runOps_inv h
  refine ⟨IBytes.wf_len_le_cap hw, ?_⟩
  intro bs s' m' hext
  obtain ⟨_, _, h1, h2, h3, h4⟩ := IBytes.extend_step hw hp hext
  exact ⟨h1, h2, h3, h4⟩

/-- Witness for claim C5: one 24-byte append from empty lands on the heap
with capacity 32 = nextPow2 24 and length 24 ≤ 32. -/
theorem amortized_growth_witness :
    runOps [BOp.extend (List.replicate 24 7)] =
      some (IBytes.mkHeap 1 32 24, [(1, List.replicate 24 7 ++ List.replicate 8 0)]) ∧
    (IBytes.mkHeap 1 32 24).len ≤ (IBytes.mkHeap 1 32 24).capacity :=
  ⟨by decide, (amortized_growth [BOp.extend (List.replicate 24 7)] (IBytes.mkHeap 1 32 24)
    [(1, List.replicate 24 7 ++ List.replicate 8 0)] (by decide)).1⟩

/-- Claim C6 (amended): reserve and reserve_exact both leave the length
unchanged and guarantee capacity ≥ old capacity + additional (hence
≥ length + additional); neither is exact, since both request
capacity() + additional and the heap path delegates to amortized growth. -/
theorem reserve_capacity_lower_bound :
    ∀ (s : IBytes) (m : Mem) (additional : Nat) (s' : IBytes) (m' : Mem), s.wf m →
      (s.reserve m additional = some (s', m') →
        s'.len = s.len ∧ s.capacity + additional ≤ s'.capacity ∧
        s.len + additional ≤ s'.capacity) ∧
      (s.reserve_exact m additional = some (s', m') →
        s'.len = s.len ∧ s.capacity + additional ≤ s'.capacity ∧
        s.len + additional ≤ s'.capacity) := by
  intro s m additional s' m' hw
  have hlencap := IBytes.wf_len_le_cap hw
  cases hi : s.is_inline with
  | true =>
      have hlen23 := IBytes.wf_inline_len hw hi
      have hcap : s.capacity = INLINE_CAPACITY := by rw [IBytes.capacity, hi, if_pos rfl]
      have hmove : ∀ cap, cap ≥ s.len → s.move_to_heap m cap = some (s', m') →
          s'.len = s.len ∧ s'.capacity = cap := by
        intro cap _ hmv
        obtain ⟨hlc, hcapmax, p, hp64, hs', _⟩ := IBytes.move_to_heap_inv hi hmv
        subst hs'
        have hl63 : s.len < 2 ^ 63 := by
          have he : INLINE_CAPACITY = 23 := rfl
          rw [he] at hlen23
          omega
        have hc64 : cap < 2 ^ 64 := by
          have he : MAX_CAPACITY = 2 ^ 63 - 1 := rfl
          rw [he] at hcapmax
          omega
        have hu : (IBytes.mkHeap p cap s.len).ubytes =
            leEncode p 8 ++ leEncode cap 8 ++ leEncode s.len 8 := rfl
        exact ⟨IBytes.canonical_len hu hl63, IBytes.canonical_capacity hu hl63 hc64⟩
      constructor
      · intro h
        rw [IBytes.reserve, hi] at h
        simp only [if_true] at h
        by_cases hgt : s.capacity + additional > INLINE_CAPACITY
        · rw [if_pos hgt] at h
          obtain ⟨h1, h2⟩ := hmove _ (by omega) h
          rw [h1, h2]
          omega
        · rw [if_neg hgt] at h
          simp only [Option.some_inj, Prod.mk.injEq] at h
          obtain ⟨hs, _⟩ := h
          subst hs
          rw [hcap] at hgt ⊢
          have he : INLINE_CAPACITY = 23 := rfl
          rw [he] at hgt hlen23 ⊢
          omega
      · intro h
        rw [IBytes.reserve_exact, hi] at h
        simp only [if_true] at h
        obtain ⟨h1, h2⟩ := hmove _ (by omega) h
        rw [h1, h2]
        omega
  | false =>
      obtain ⟨p, c, l, blk, hu, hp, hc, hlc, hlk, hbl, _, hlen, hcap, hhp, hhc⟩ :=
        IBytes.wfHeap_facts (IBytes.wf_heap_elim hw hi)
      have hres : s.resize m (s.capacity + additional) = some (s', m') →
          s'.len = s.len ∧ s.capacity + additional ≤ s'.capacity := by
        intro h
        obtain ⟨hlnp, hcase⟩ := IBytes.resize_inv hu hp hc hlc hlk hbl h
        cases hcase with
        | inl hng =>
            obtain ⟨hle, hs, _⟩ := hng
            subst hs
            rw [hcap] at hle ⊢
            omega
        | inr hgrow =>
            obtain ⟨hclt, p2, hp2, hs', hmaxcap, _⟩ := hgrow
            subst hs'
            have hl63 : l < 2 ^ 63 := by
              have he : MAX_CAPACITY = 2 ^ 63 - 1 := rfl
              rw [he] at hc
              omega
            have hc64 : max (max (2 * c) (s.capacity + additional)) 8 < 2 ^ 64 := by
              have he : MAX_CAPACITY = 2 ^ 63 - 1 := rfl
              rw [he] at hmaxcap
              omega
            have hu2 : (IBytes.mkHeap p2 (max (max (2 * c) (s.capacity + additional)) 8)
                l).ubytes = leEncode p2 8 ++
                leEncode (max (max (2 * c) (s.capacity + additional)) 8) 8 ++
                leEncode l 8 := rfl
            rw [IBytes.canonical_len hu2 hl63, IBytes.canonical_capacity hu2 hl63 hc64, hlen]
            omega
      constructor
      · intro h
        rw [IBytes.reserve, hi] at h
        simp only [Bool.false_eq_true, if_false] at h
        obtain ⟨h1, h2⟩ := hres h
        omega
      · intro h
        rw [IBytes.reserve_exact, hi] at h
        simp only [Bool.false_eq_true, if_false] at h
        obtain ⟨h1, h2⟩ := hres h
        omega

/-- Witness for claim C6: reserve(2) on the empty inline container yields a
heap buffer of capacity 25 = 23 + 2, at or above length + 2. -/
theorem reserve_capacity_witness :
    IBytes.reserve IBytes.new [] 2 = some (IBytes.mkHeap 1 25 0, [(1, List.replicate 25 0)]) ∧
    IBytes.new.capacity + 2 ≤ (IBytes.mkHeap 1 25 0).capacity ∧
    IBytes.new.len + 2 ≤ (IBytes.mkHeap 1 25 0).capacity :=
  have h := (reserve_capacity_lower_bound IBytes.new [] 2 (IBytes.mkHeap 1 25 0)
    [(1, List.replicate 25 0)] (IBytes.wf_new [])).1 (by decide)
  ⟨by decide, h.2.1, h.2.2⟩

/-- Claim C7: from_utf8 validates the slice view; on success the string is
the untouched container (bytes exactly the input), on failure the error
carries the untouched container (recoverable via into_bytes and as_bytes)
together with the decode error's position and kind. -/
theorem from_utf8_preserves_bytes :
    ∀ (b : IBytes) (m : Mem) (bs : List Nat), b.as_slice m = some bs →
      (runUtf8Validation bs = none → IString.from_utf8 b m = some (.ok ⟨b⟩) ∧
        IString.as_str_bytes ⟨b⟩ m = some bs) ∧
      (∀ e : Utf8Error, runUtf8Validation bs = some e →
        IString.from_utf8 b m = some (.err ⟨b, e⟩) ∧
        FromUtf8Error.into_bytes ⟨b, e⟩ = b ∧
        FromUtf8Error.as_bytes ⟨b, e⟩ m = some bs ∧
        (FromUtf8Error.mk b e).error = e) := by
  intro b m bs hsl
  constructor
  · intro hv
    exact ⟨by simp [IString.from_utf8, hsl, hv], hsl⟩
  · intro e hv
    exact ⟨by simp [IString.from_utf8, hsl, hv], rfl, hsl, rfl⟩

/-- Witness for claim C7: the lone continuation byte 0x80 is rejected at
position 0 with error length 1 and the original container is recoverable. -/
theorem from_utf8_witness :
    IString.from_utf8 (IBytes.mkInline [128] (1 ||| IS_INLINE)) [] =
      some (.err ⟨IBytes.mkInline [128] (1 ||| IS_INLINE), ⟨0, some 1⟩⟩) ∧
    FromUtf8Error.as_bytes ⟨IBytes.mkInline [128] (1 ||| IS_INLINE), ⟨0, some 1⟩⟩ []
      = some [128] :=
  have h := (from_utf8_preserves_bytes (IBytes.mkInline [128] (1 ||| IS_INLINE)) [] [128]
    (by decide)).2 ⟨0, some 1⟩ (by decide)
  ⟨h.1, h.2.2.1⟩

/-- Claim C8: Tiny construction is total: None exactly for inputs of 8 or
more bytes; below that it succeeds (the empty input included) with the
input as its view and the input's length as its length, for TinyBytes and
TinyString alike. -/
theorem tiny_new_total :
    ∀ s : List Nat,
      (8 ≤ s.length → TinyBytes.new s = none ∧ TinyString.new s = none) ∧
      (s.length < 8 → ∃ t : TinyBytes, TinyBytes.new s = some t ∧
        TinyString.new s = some t ∧ t.view = s ∧ t.len = s.length) := by
  intro s
  constructor
  · intro h
    constructor <;> simp [TinyBytes.new, TinyString.new, h]
  · intro h
    refine ⟨⟨s.length, padTrunc s 7⟩, ?_, ?_, ?_, rfl⟩
    · rw [TinyBytes.new, if_neg (by omega)]
    · rw [TinyString.new, TinyBytes.new, if_neg (by omega)]
    · show (padTrunc s 7).take s.length = s
      exact padTrunc_take (by omega)

/-- Witness for claim C8: an 8-byte input is rejected, a 3-byte input and
the empty input succeed with their content. -/
theorem tiny_new_witness :
    TinyBytes.new (List.replicate 8 1) = none ∧
    (∃ t : TinyBytes, TinyBytes.new [1, 2, 3] = some t ∧ TinyString.new [1, 2, 3] = some t ∧
      t.view = [1, 2, 3] ∧ t.len = 3) ∧
    (∃ t : TinyBytes, TinyBytes.new [] = some t ∧ TinyString.new [] = some t ∧
      t.view = [] ∧ t.len = 0) :=
  ⟨((tiny_new_total (List.replicate 8 1)).1 (by decide)).1,
    (tiny_new_total [1, 2, 3]).2 (by decide),
    (tiny_new_total []).2 (by decide)⟩

/-- Claim C10: shrink() is sound exactly under the heap-resident
precondition: on every well-formed heap-resident receiver it succeeds with
the content preserved, while on an inline receiver it reinterprets the
inline content bytes as the heap pointer and capacity (here the bytes
1, 2, 3 decode to the pointer 197121), accesses and frees that bogus
allocation, which is undefined behaviour (none) — and the same applies
through the safe public IString::shrink. -/
theorem shrink_sound_only_on_heap :
    (∀ (s : IBytes) (m : Mem) (bs : List Nat), s.wf m → s.is_inline = false →
      s.as_slice m = some bs →
      ∃ s' m', s.shrink m = some (s', m') ∧ s'.as_slice m' = some bs) ∧
    (IBytes.shrink (IBytes.mkInline [1, 2, 3] (3 ||| IS_INLINE)) [] = none ∧
      (IBytes.mkInline [1, 2, 3] (3 ||| IS_INLINE)).is_inline = true ∧
      (IBytes.mkInline [1, 2, 3] (3 ||| IS_INLINE)).as_slice [] = some [1, 2, 3] ∧
      (IBytes.mkInline [1, 2, 3] (3 ||| IS_INLINE)).heapPtr = 197121 ∧
      Mem.lookup [] 197121 = none ∧
      IString.shrink ⟨IBytes.mkInline [1, 2, 3] (3 ||| IS_INLINE)⟩ [] = none) :=
  ⟨fun _ _ _ hw hi hsl => IBytes.shrink_heap_ok hw hi hsl, by decide⟩

/-- Witness for claim C10: shrink on a well-formed heap container of length
24 and capacity 32 succeeds and preserves the 24-byte content. -/
theorem shrink_sound_witness :
    ∃ s' m', IBytes.shrink (IBytes.mkHeap 1 32 24)
        [(1, List.replicate 24 7 ++ List.replicate 8 0)] = some (s', m') ∧
      s'.as_slice m' = some (List.replicate 24 7) := by
  have hw : (IBytes.mkHeap 1 32 24).wf [(1, List.replicate 24 7 ++ List.replicate 8 0)] := by
    refine ⟨by decide, ?_⟩
    show (IBytes.mkHeap 1 32 24).wfHeap [(1, List.replicate 24 7 ++ List.replicate 8 0)]
    exact ⟨1, 32, 24, List.replicate 24 7 ++ List.replicate 8 0, rfl, by decide, by decide,
      by decide, by decide, by decide⟩
  exact shrink_sound_only_on_heap.1 _ _ _ hw (by decide) (by decide)

/-- The stack-buffer loop of the iterator collection accumulates exactly the
concatenated encodings: with pos used bytes of a 15-byte buffer, the final
view is the accumulated prefix followed by the encodings of the remaining
characters. -/
theorem smallGo_view : ∀ (cs buf : List Nat) (pos : Nat), buf.length = 15 → pos ≤ 15 →
    (smallFromIterGo buf pos cs).view =
      buf.take pos ++ (cs.map utf8EncodeChar).flatten := by
  intro cs
  induction cs with
  | nil =>
      intro buf pos h1 h2
      simp [smallFromIterGo, SmallRepr.view]
  | cons c rest ih =>
      intro buf pos h1 h2
      have h15 : SMALL_INLINE_CAPACITY = 15 := rfl
      have htk : (buf.take pos).length = pos := by
        simp [List.length_take]
        omega
      simp only [smallFromIterGo]
      by_cases hover : SMALL_INLINE_CAPACITY < pos + lenUtf8 c
      · rw [if_pos hover]
        have hSlen : (buf.take pos ++ utf8EncodeChar c ++
            (rest.map utf8EncodeChar).flatten).length =
            pos + lenUtf8 c + (rest.map utf8EncodeChar).flatten.length := by
          simp [htk, utf8EncodeChar_length]
          omega
        rw [smallFromString, if_neg (by rw [hSlen]; rw [h15] at hover ⊢; omega)]
        simp [SmallRepr.view, List.append_assoc]
      · rw [if_neg hover]
        rw [h15] at hover
        have henc : (utf8EncodeChar c).length = lenUtf8 c := utf8EncodeChar_length c
        have hbuf2 : (setRange buf pos (utf8EncodeChar c)).length = 15 := by
          rw [setRange_length (by omega)]
          exact h1
        rw [ih _ _ hbuf2 (by omega)]
        have hpre : (setRange buf pos (utf8EncodeChar c)).take (pos + lenUtf8 c) =
            buf.take pos ++ utf8EncodeChar c := by
          have hleft : (buf.take pos ++ utf8EncodeChar c).length = pos + lenUtf8 c := by
            simp [htk, henc]
          rw [setRange]
          exact List.take_left' hleft
        rw [hpre, List.append_assoc]
        simp [List.map_cons, List.flatten_cons]

/-- Claim C9: the stack-buffer specialization of SmallString's iterator
collection produces exactly the content of collecting the same characters
into a growable String and converting it into a SmallString at the end. -/
theorem small_from_iter_refines_string_collect :
    ∀ cs : List Nat, (smallFromIter cs).view = (smallFromIterNaive cs).view := by
  intro cs
  rw [smallFromIter, smallGo_view cs (List.replicate SMALL_INLINE_CAPACITY 0) 0
    (by simp [SMALL_INLINE_CAPACITY]) (by omega)]
  simp only [List.take_zero, List.nil_append]
  rw [smallFromIterNaive, smallFromString]
  by_cases h : ((cs.map utf8EncodeChar).flatten).length ≤ SMALL_INLINE_CAPACITY
  · rw [if_pos h]
    show _ = (padTrunc _ SMALL_INLINE_CAPACITY).take _
    exact (padTrunc_take h).symm
  · rw [if_neg h]
    rfl

end IStr
